import Mathlib

/-!
Shallow embedding of the GloMPO core pieces referenced by the claims:

* `src/glompo/core/optimizerlogger.py` — `OptimizerLogger` and the per-worker
  `_OptimizerLogger` stream (embedded as `OptimizerLogger` / `OptStream`).
* `src/glompo/common/corebase.py` — the hunter/checker predicate algebra
  (`_CoreBase`, `_CombiCore`, `_OrCore`, `_AndCore`), embedded as `CoreTree`.
* `src/glompo/hunters/pseudoconv.py` — `PseudoConverged.__call__`.

Python dicts are embedded as association lists that keep insertion order:
inserting an existing key overwrites the value in place, a new key is appended
at the end (`dictInsert`).  Lookup that would raise `KeyError` is `Option`.
Objective values (`float` in the source) are embedded as `Rat`; the initial
`math.inf` of a stream's running best is the `none` of an `Option Rat`.
-/

/-- Lookup in a Python-dict model: first (unique) binding of the key. -/
def dictGet {κ α : Type} [DecidableEq κ] (k : κ) : List (κ × α) → Option α
  | [] => none
  | p :: rest => if p.1 = k then some p.2 else dictGet k rest

/-- Assignment `d[k] = v` in a Python-dict model: overwrite in place when the
key exists, append at the end when it is new. -/
def dictInsert {κ α : Type} [DecidableEq κ] (k : κ) (v : α) : List (κ × α) → List (κ × α)
  | [] => [(k, v)]
  | p :: rest => if p.1 = k then (k, v) :: rest else p :: dictInsert k v rest

/-- One record of `_OptimizerLogger.history[i]` (optimizerlogger.py:159-164):
the dict literal stored by `append`. -/
structure Entry where
  f_call_overall : Int
  f_call_opt : Int
  fx : Rat
  i_best : Int
  fx_best : Rat
  x : List Rat
deriving DecidableEq, Repr

/-- `fx < self.fx_best` where `self.fx_best` starts as `math.inf`
(optimizerlogger.py:139,148); `none` models the infinite initial value. -/
def betterThan (fx : Rat) : Option Rat → Bool
  | none => true
  | some b => decide (fx < b)

/-- The per-worker stream `_OptimizerLogger` (optimizerlogger.py:128-140). -/
structure OptStream where
  metadata : List (String × String)
  history : List (Int × Entry)
  messages : List String
  fx_best : Option Rat
  i_best : Int
deriving DecidableEq, Repr

/-- `_OptimizerLogger.__init__` (optimizerlogger.py:131-140). -/
def OptStream.init (opt_id : Int) (class_name time_start : String) : OptStream :=
  { metadata := [("Optimizer ID", toString opt_id),
                 ("Optimizer Type", class_name),
                 ("Start Time", time_start)]
  , history := []
  , messages := []
  , fx_best := none
  , i_best := -1 }

/-- `_OptimizerLogger.append` (optimizerlogger.py:146-164).  The running best
is updated first, then the entry is stored under key `i`; `x` is already a
vector here (the source also wraps scalars into a one-element list). -/
def OptStream.append (s : OptStream) (i f_call_overall f_call_opt : Int)
    (x : List Rat) (fx : Rat) : OptStream :=
  let better := betterThan fx s.fx_best
  let fb : Rat := if better then fx else s.fx_best.getD fx
  let ib : Int := if better then i else s.i_best
  { s with fx_best := some fb
         , i_best := ib
         , history := dictInsert i
             { f_call_overall := f_call_overall
             , f_call_opt := f_call_opt
             , fx := fx
             , i_best := ib
             , fx_best := fb
             , x := x } s.history }

/-- `_OptimizerLogger.update_metadata` (optimizerlogger.py:142-144). -/
def OptStream.update_metadata (s : OptStream) (key value : String) : OptStream :=
  { s with metadata := dictInsert key value s.metadata }

/-- `_OptimizerLogger.append_message` (optimizerlogger.py:166-168). -/
def OptStream.append_message (s : OptStream) (message : String) : OptStream :=
  { s with messages := s.messages ++ [message] }

/-- `OptimizerLogger` (optimizerlogger.py:13-17): the `_storage` dict mapping
`opt_id` to a per-worker stream. -/
structure OptimizerLogger where
  _storage : List (Int × OptStream)
deriving DecidableEq, Repr

/-- `OptimizerLogger.__init__` (optimizerlogger.py:16-17). -/
def OptimizerLogger.empty : OptimizerLogger := { _storage := [] }

/-- `OptimizerLogger.__len__` (optimizerlogger.py:19-20): `len(self._storage)`. -/
def OptimizerLogger.length (log : OptimizerLogger) : Nat :=
  log._storage.length

/-- `OptimizerLogger.add_optimizer` (optimizerlogger.py:22-24): unconditional
dict assignment of a fresh stream. -/
def OptimizerLogger.add_optimizer (log : OptimizerLogger) (opt_id : Int)
    (class_name time_start : String) : OptimizerLogger :=
  let s := OptStream.init opt_id class_name time_start
  { _storage := dictInsert opt_id s log._storage }

/-- `OptimizerLogger.put_iteration` (optimizerlogger.py:26-28):
`self._storage[opt_id].append(...)`; an unknown `opt_id` raises `KeyError`,
modelled as `none`. -/
def OptimizerLogger.put_iteration (log : OptimizerLogger) (opt_id i f_call_overall f_call_opt : Int)
    (x : List Rat) (fx : Rat) : Option OptimizerLogger :=
  match dictGet opt_id log._storage with
  | none => none
  | some s =>
      let s' := s.append i f_call_overall f_call_opt x fx
      some { _storage := dictInsert opt_id s' log._storage }

/-- A value of one track of a history entry (`item[track]` in get_history). -/
inductive TrackValue where
  | int (n : Int)
  | rat (q : Rat)
  | vec (v : List Rat)
deriving DecidableEq, Repr

/-- `item[track]` on the history dict stored by `append`
(optimizerlogger.py:159-164): exactly the six stored keys succeed, any other
track name raises `KeyError` (`none`). -/
def Entry.getTrack (e : Entry) (track : String) : Option TrackValue :=
  if track = "f_call_overall" then some (.int e.f_call_overall)
  else if track = "f_call_opt" then some (.int e.f_call_opt)
  else if track = "fx" then some (.rat e.fx)
  else if track = "i_best" then some (.int e.i_best)
  else if track = "fx_best" then some (.rat e.fx_best)
  else if track = "x" then some (.vec e.x)
  else none

/-- `OptimizerLogger.get_history` with a track given (optimizerlogger.py:40-64):
iterates `history.values()` in insertion order collecting `item[track]`.
`none` models the `KeyError` of an unknown `opt_id` or of an unknown track
name hit on a non-empty history. -/
def OptimizerLogger.get_history (log : OptimizerLogger) (opt_id : Int)
    (track : String) : Option (List TrackValue) :=
  match dictGet opt_id log._storage with
  | none => none
  | some s => (s.history.map Prod.snd).mapM (fun e => e.getTrack track)

/-- The `fx_best` series of a stream in insertion order (what
`get_history(opt_id, "fx_best")` extracts). -/
def fxBestTrack (s : OptStream) : List Rat :=
  s.history.map (fun p => p.2.fx_best)

/-- The `f_call_opt` series of a stream in insertion order (what
`get_history(opt_id, "f_call_opt")` extracts). -/
def fcallOptTrack (s : OptStream) : List Int :=
  s.history.map (fun p => p.2.f_call_opt)

/-- One worker iteration as fed to `put_iteration`. -/
structure Iter where
  n_iter : Int
  f_call_overall : Int
  f_call_opt : Int
  x : List Rat
  fx : Rat
deriving DecidableEq, Repr

/-- Feed a sequence of iterations to one stream via `append`. -/
def appendRun (s : OptStream) (its : List Iter) : OptStream :=
  its.foldl (fun acc it => acc.append it.n_iter it.f_call_overall it.f_call_opt it.x it.fx) s

/-- Feed a sequence of iterations to the log via `put_iteration`. -/
def putIterAll (log : OptimizerLogger) (opt_id : Int) (its : List Iter) :
    Option OptimizerLogger :=
  its.foldlM (fun acc it =>
    acc.put_iteration opt_id it.n_iter it.f_call_overall it.f_call_opt it.x it.fx) log

/-- Modelled from the spec: `len() -> usize` — "total iterations across
workers".  Comparison definition for the length claim; the source `__len__`
is `OptimizerLogger.length` above. -/
def specTotalIterations (log : OptimizerLogger) : Nat :=
  (log._storage.map (fun p => p.2.history.length)).sum

/-!
## Predicate algebra (`src/glompo/common/corebase.py`)

A tree of hunters/checkers.  A `leaf` is a concrete predicate; its `ret` field
abstracts the boolean its `__call__` computes, and — following the leaf
convention of the one concrete hunter in the sources
(`PseudoConverged.__call__` sets `self._last_result = ...` and returns it) —
calling a leaf caches that boolean in `last_result`.  `orCore` / `andCore`
embed `_OrCore` / `_AndCore` with their cached `_last_result` and two bases.
-/
inductive CoreTree where
  | leaf (ret : Bool) (last_result : Option Bool)
  | orCore (last_result : Option Bool) (base1 base2 : CoreTree)
  | andCore (last_result : Option Bool) (base1 base2 : CoreTree)
deriving DecidableEq, Repr

/-- The `_last_result` attribute of a node. -/
def CoreTree.lastResult : CoreTree → Option Bool
  | .leaf _ lr => lr
  | .orCore lr _ _ => lr
  | .andCore lr _ _ => lr

/-- The statement pair `base._last_result = None; base.reset()` that
`_CombiCore.reset` (corebase.py:77-86) runs on each base: it clears the
base's own cache and recurses below it, so the whole subtree ends cleared. -/
def CoreTree.clearSub : CoreTree → CoreTree
  | .leaf r _ => .leaf r none
  | .orCore _ b1 b2 => .orCore none b1.clearSub b2.clearSub
  | .andCore _ b1 b2 => .andCore none b1.clearSub b2.clearSub

/-- The virtual `reset`: `_CoreBase.reset` (corebase.py:47-49) clears a leaf's
own cache; `_CombiCore.reset` (corebase.py:77-86) runs
`base._last_result = None; base.reset()` on both bases and never touches the
combiner's own `_last_result`. -/
def CoreTree.reset : CoreTree → CoreTree
  | .leaf r _ => .leaf r none
  | .orCore lr b1 b2 => .orCore lr b1.clearSub b2.clearSub
  | .andCore lr b1 b2 => .andCore lr b1.clearSub b2.clearSub

/-- Number of nodes; only used as the termination measure of `call`. -/
def CoreTree.size : CoreTree → Nat
  | .leaf _ _ => 1
  | .orCore _ b1 b2 => b1.size + b2.size + 1
  | .andCore _ b1 b2 => b1.size + b2.size + 1

theorem CoreTree.size_clearSub (t : CoreTree) : t.clearSub.size = t.size := by
  induction t with
  | leaf r lr => rfl
  | orCore lr b1 b2 ih1 ih2 => simp [CoreTree.clearSub, CoreTree.size, ih1, ih2]
  | andCore lr b1 b2 ih1 ih2 => simp [CoreTree.clearSub, CoreTree.size, ih1, ih2]

/-- Evaluation, returning the updated tree and the boolean result.

* leaf: the concrete predicate computes its boolean, caches and returns it
  (the pattern of `PseudoConverged.__call__`, pseudoconv.py:20-50);
* `_OrCore.__call__` (corebase.py:105-108): `super().__call__` runs
  `self.reset()`, i.e. both bases are cleared, then
  `self._last_result = self._base1(...) or self._base2(...)` — Python `or`
  evaluates `_base2` only when `_base1` returned a falsy value;
* `_AndCore.__call__` (corebase.py:119-122): same with `and`, so `_base2` is
  evaluated only when `_base1` returned a truthy value. -/
def CoreTree.call : CoreTree → CoreTree × Bool
  | .leaf r _ => (.leaf r (some r), r)
  | .orCore _ b1 b2 =>
      let p1 := b1.clearSub.call
      if p1.2 then (.orCore (some true) p1.1 b2.clearSub, true)
      else
        let p2 := b2.clearSub.call
        (.orCore (some p2.2) p1.1 p2.1, p2.2)
  | .andCore _ b1 b2 =>
      let p1 := b1.clearSub.call
      if p1.2 then
        let p2 := b2.clearSub.call
        (.andCore (some p2.2) p1.1 p2.1, p2.2)
      else (.andCore (some false) p1.1 b2.clearSub, false)
termination_by t => t.size
decreasing_by
  all_goals simp [CoreTree.size, CoreTree.size_clearSub]
  all_goals omega

/-- Every node of the tree, the root included, has `last_result = None`. -/
def CoreTree.allCleared : CoreTree → Bool
  | .leaf _ lr => lr.isNone
  | .orCore lr b1 b2 => lr.isNone && b1.allCleared && b2.allCleared
  | .andCore lr b1 b2 => lr.isNone && b1.allCleared && b2.allCleared

/-- Every strict descendant of the root has `last_result = None`. -/
def CoreTree.subCleared : CoreTree → Bool
  | .leaf _ _ => true
  | .orCore _ b1 b2 => b1.allCleared && b2.allCleared
  | .andCore _ b1 b2 => b1.allCleared && b2.allCleared

/-- Every leaf of the tree has a non-`None` `last_result`. -/
def CoreTree.leavesSet : CoreTree → Bool
  | .leaf _ lr => lr.isSome
  | .orCore _ b1 b2 => b1.leavesSet && b2.leavesSet
  | .andCore _ b1 b2 => b1.leavesSet && b2.leavesSet

/-- Whether the node is a concrete (leaf) predicate. -/
def CoreTree.isLeaf : CoreTree → Bool
  | .leaf _ _ => true
  | _ => false

/-!
## `PseudoConverged` (`src/glompo/hunters/pseudoconv.py`)
-/

/-- The walk-back loop of `PseudoConverged.__call__` (pseudoconv.py:34-47).
`fcalls` / `vals` are the reversed `f_call_opt` / `fx_best` series, walked in
lockstep starting at the latest entry (the source checks
`fcalls[-1] - nearest_iter < self.calls` before the first decrement, so the
latest entry itself is inspected first); running off the front of the history
is the `IndexError` branch, returned as `none`. -/
def walkBack (last calls : Int) : List Int → List Rat → Option Rat
  | f :: fs, v :: vs => if calls ≤ last - f then some v else walkBack last calls fs vs
  | _, _ => none

/-- `PseudoConverged.__call__` (pseudoconv.py:20-50) on the victim's stream:
`vals = get_history(victim, "fx_best")`, `fcalls = get_history(victim,
"f_call_opt")`; an empty history would raise `IndexError` at `fcalls[-1]`
(`none`).  Otherwise: `False` when `fcalls[-1] <= calls`; `False` when the
walk back exhausts the history; else compare
`abs(fbest_current - fbest_calls) <= abs(fbest_calls * tol)`. -/
def PseudoConverged.call (calls : Int) (tol : Rat) (s : OptStream) : Option Bool :=
  let fcalls := (fcallOptTrack s).reverse
  let vals := (fxBestTrack s).reverse
  match fcalls, vals with
  | [], _ => none
  | _ :: _, [] => none
  | last :: rfs, vlast :: rvs =>
      if last ≤ calls then some false
      else
        match walkBack last calls (last :: rfs) (vlast :: rvs) with
        | none => some false
        | some fbest_calls => some (decide (|vlast - fbest_calls| ≤ |fbest_calls * tol|))

/-- Modelled from the claim's words, for comparison with `PseudoConverged.call`:
return `False` when the latest `f_call_opt` is at most `calls` or when no
entry lies at least `calls` evaluations behind the latest; otherwise take the
first entry, walking backwards, whose `f_call_opt` is at least `calls` behind
the latest and return whether
`|fx_best(last) - fx_best(entry)| ≤ tol * |fx_best(entry)|`. -/
def pseudoConvergedSpec (calls : Int) (tol : Rat) (s : OptStream) : Option Bool :=
  let fcalls := (fcallOptTrack s).reverse
  let vals := (fxBestTrack s).reverse
  match fcalls, vals with
  | [], _ => none
  | _ :: _, [] => none
  | last :: _, vlast :: _ =>
      if last ≤ calls then some false
      else
        match (fcalls.zip vals).find? (fun p => decide (calls ≤ last - p.1)) with
        | none => some false
        | some p => some (decide (|vlast - p.2| ≤ tol * |p.2|))

/-!
## Dictionary lemmas
-/

theorem dictGet_insert_self {κ α : Type} [DecidableEq κ] (k : κ) (v : α)
    (l : List (κ × α)) : dictGet k (dictInsert k v l) = some v := by
  induction l with
  | nil => simp [dictGet, dictInsert]
  | cons p rest ih =>
      by_cases h : p.1 = k
      · simp [dictGet, dictInsert, h]
      · simp [dictGet, dictInsert, h, ih]

theorem dictInsert_of_not_mem {κ α : Type} [DecidableEq κ] {k : κ} (v : α)
    {l : List (κ × α)} (h : k ∉ l.map Prod.fst) :
    dictInsert k v l = l ++ [(k, v)] := by
  induction l with
  | nil => rfl
  | cons p rest ih =>
      simp only [List.map_cons, List.mem_cons] at h
      push_neg at h
      simp [dictInsert, Ne.symm h.1, ih h.2]

theorem dictInsert_keys_of_mem {κ α : Type} [DecidableEq κ] {k : κ} (v : α)
    {l : List (κ × α)} (h : k ∈ l.map Prod.fst) :
    (dictInsert k v l).map Prod.fst = l.map Prod.fst := by
  induction l with
  | nil => simp at h
  | cons p rest ih =>
      by_cases hp : p.1 = k
      · simp [dictInsert, hp]
      · simp only [List.map_cons, List.mem_cons] at h
        rcases h with h | h
        · exact absurd h.symm hp
        · simp [dictInsert, hp, ih h]

theorem dictGet_none_iff {κ α : Type} [DecidableEq κ] (k : κ) (l : List (κ × α)) :
    dictGet k l = none ↔ k ∉ l.map Prod.fst := by
  induction l with
  | nil => simp [dictGet]
  | cons p rest ih =>
      by_cases hp : p.1 = k
      · simp [dictGet, hp]
      · simp [dictGet, hp, ih, Ne.symm hp]

theorem dictInsert_append_last {κ α : Type} [DecidableEq κ] {k : κ} (v w : α)
    {l : List (κ × α)} (h : k ∉ l.map Prod.fst) :
    dictInsert k v (l ++ [(k, w)]) = l ++ [(k, v)] := by
  induction l with
  | nil => simp [dictInsert]
  | cons p rest ih =>
      simp only [List.map_cons, List.mem_cons] at h
      push_neg at h
      simp [dictInsert, Ne.symm h.1, ih h.2]

/-- `List.mapM` over `Option` succeeds pointwise when the function is total. -/
theorem mapM_of_total {α β : Type} (f : α → Option β) (g : α → β)
    (l : List α) (h : ∀ a ∈ l, f a = some (g a)) :
    l.mapM f = some (l.map g) := by
  induction l with
  | nil => rfl
  | cons a rest ih =>
      rw [List.mapM_cons, h a (by simp), ih (fun b hb => h b (by simp [hb]))]
      rfl

/-- `List.mapM` over `Option` fails on a non-empty list when the function
always fails. -/
theorem mapM_none_of_none {α β : Type} (f : α → Option β)
    (l : List α) (hne : l ≠ []) (h : ∀ a, f a = none) :
    l.mapM f = none := by
  cases l with
  | nil => exact absurd rfl hne
  | cons a rest => rw [List.mapM_cons, h a]; rfl

/-!
## Claims C2, C3, C5, C6 — logger error handling and length
-/

/-- C2, counterexample: after an iteration has been appended for worker 1
(the packet the manager regards as final — `put_iteration` receives no
`final` flag at all), a subsequent `put_iteration` for the same worker
succeeds and the stream grows to two entries, so the claimed rejection does
not exist. -/
theorem glompo_C2_counterexample :
    (((OptimizerLogger.empty.add_optimizer 1 "OptA" "t0").put_iteration 1 1 1 1 [0] 3).bind
      (fun l => l.put_iteration 1 2 2 2 [0] 4)).map
        (fun l => (dictGet 1 l._storage).map (fun s => s.history.length))
      = some (some 2) := by decide

/-- C2 (amended): `put_iteration` fails exactly when the `opt_id` was never
added (`KeyError` on `self._storage[opt_id]`); the log keeps no `final` flag,
so it accepts iterations arriving after any previously appended — including a
final — iteration. -/
theorem glompo_C2_put_iteration_fails_iff_unknown (log : OptimizerLogger)
    (opt_id i f_call_overall f_call_opt : Int) (x : List Rat) (fx : Rat) :
    (log.put_iteration opt_id i f_call_overall f_call_opt x fx).isSome
      ↔ (dictGet opt_id log._storage).isSome := by
  unfold OptimizerLogger.put_iteration
  cases dictGet opt_id log._storage <;> simp

/-- C3, counterexample: appending `n_iter = 5` and then the out-of-order
`n_iter = 3` to a fresh stream keeps BOTH entries (keys `[5, 3]` in arrival
order), not only the `n_iter = 5` one, and nothing is discarded. -/
theorem glompo_C3_counterexample :
    ((((OptStream.init 1 "A" "t").append 5 1 1 [0] 3).append 3 2 2 [0] 4).history.map Prod.fst
        = [5, 3])
    ∧ (((OptStream.init 1 "A" "t").append 5 1 1 [0] 3).append 3 2 2 [0] 4).history.length ≠ 1 := by
  constructor
  · decide
  · decide

/-- C3 (amended): `append` performs no ordering check: an iteration whose
`n_iter` differs from every stored key is simply stored under its own key, so
after appending `n_iter = i1` then `n_iter = i2 ≠ i1` the stream holds both
entries in arrival order `[i1, i2]`. -/
theorem glompo_C3_out_of_order_kept (opt_id : Int) (cn ts : String)
    (i1 i2 fco1 fcopt1 fco2 fcopt2 : Int) (x1 x2 : List Rat) (f1 f2 : Rat)
    (h : i2 ≠ i1) :
    ((((OptStream.init opt_id cn ts).append i1 fco1 fcopt1 x1 f1).append
        i2 fco2 fcopt2 x2 f2).history.map Prod.fst) = [i1, i2] := by
  simp [OptStream.init, OptStream.append, dictInsert, Ne.symm h]

/-- C3, witness for the amended claim at `i1 = 5`, `i2 = 3`. -/
theorem glompo_C3_witness :
    (3 : Int) ≠ 5
    ∧ ((((OptStream.init 1 "A" "t").append 5 1 1 [0] 3).append
        3 2 2 [0] 4).history.map Prod.fst) = [5, 3] :=
  ⟨by decide, glompo_C3_out_of_order_kept 1 "A" "t" 5 3 1 1 2 2 [0] [0] 3 4 (by decide)⟩

/-- C5, counterexample: after worker 1 was added and has one logged
iteration, calling `add_optimizer(1, ...)` again does not abort — it replaces
the stream, whose history is now empty (the old iteration is erased). -/
theorem glompo_C5_counterexample :
    (((OptimizerLogger.empty.add_optimizer 1 "OptA" "t0").put_iteration 1 1 1 1 [0] 3).map
      (fun l => (dictGet 1 (l.add_optimizer 1 "OptB" "t1")._storage).map
        (fun s => s.history.length))) = some (some 0) := by decide

/-- C5 (amended): `add_optimizer` with an already-known `opt_id` does not
fail: the dict assignment silently replaces the existing stream with a fresh
empty one, erasing its history. -/
theorem glompo_C5_add_optimizer_replaces (log : OptimizerLogger) (opt_id : Int)
    (cn ts : String) :
    dictGet opt_id (log.add_optimizer opt_id cn ts)._storage
      = some (OptStream.init opt_id cn ts) := by
  unfold OptimizerLogger.add_optimizer
  exact dictGet_insert_self _ _ _

/-- C6, counterexample: a log holding one worker with two appended iterations
has `len = 1` (the number of streams), not `2` (the total number of
iterations). -/
theorem glompo_C6_counterexample :
    (((OptimizerLogger.empty.add_optimizer 1 "OptA" "t0").put_iteration 1 1 1 1 [0] 3).bind
        (fun l => l.put_iteration 1 2 2 2 [0] 4)).map OptimizerLogger.length = some 1
    ∧ (((OptimizerLogger.empty.add_optimizer 1 "OptA" "t0").put_iteration 1 1 1 1 [0] 3).bind
        (fun l => l.put_iteration 1 2 2 2 [0] 4)).map specTotalIterations = some 2 := by
  constructor
  · decide
  · decide

/-- C6 (amended): `len` counts optimizer streams, not iterations: adding a
fresh worker raises it by one while a successful `put_iteration` leaves it
unchanged. -/
theorem glompo_C6_length_counts_streams (log : OptimizerLogger) (id2 : Int)
    (cn ts : String) (opt_id i f_call_overall f_call_opt : Int) (x : List Rat)
    (fx : Rat) (log' : OptimizerLogger)
    (h1 : dictGet id2 log._storage = none)
    (h2 : log.put_iteration opt_id i f_call_overall f_call_opt x fx = some log') :
    (log.add_optimizer id2 cn ts).length = log.length + 1
    ∧ log'.length = log.length := by
  constructor
  · have h3 := dictInsert_of_not_mem (OptStream.init id2 cn ts)
      ((dictGet_none_iff _ _).1 h1)
    simp [OptimizerLogger.add_optimizer, OptimizerLogger.length, h3]
  · unfold OptimizerLogger.put_iteration at h2
    rcases hget : dictGet opt_id log._storage with _ | s
    · rw [hget] at h2; exact absurd h2 (by simp)
    · rw [hget] at h2
      have hmem : opt_id ∈ log._storage.map Prod.fst := by
        by_contra hc
        rw [(dictGet_none_iff _ _).2 hc] at hget
        exact absurd hget (by simp)
      have hkeys := dictInsert_keys_of_mem
        (s.append i f_call_overall f_call_opt x fx) hmem
      have hlen : (dictInsert opt_id (s.append i f_call_overall f_call_opt x fx)
          log._storage).length = log._storage.length := by
        have := congrArg List.length hkeys
        simpa using this
      cases h2
      unfold OptimizerLogger.length
      simpa using hlen

/-- C6, witness for the amended claim: a log with one worker, a fresh id 2,
and one appended iteration for worker 1. -/
theorem glompo_C6_witness :
    ((OptimizerLogger.empty.add_optimizer 1 "A" "t0").add_optimizer 2 "B" "t1").length
        = (OptimizerLogger.empty.add_optimizer 1 "A" "t0").length + 1
    ∧ (OptimizerLogger.mk (dictInsert 1 ((OptStream.init 1 "A" "t0").append 1 1 1 [0] 3)
        (OptimizerLogger.empty.add_optimizer 1 "A" "t0")._storage)).length
        = (OptimizerLogger.empty.add_optimizer 1 "A" "t0").length :=
  glompo_C6_length_counts_streams (OptimizerLogger.empty.add_optimizer 1 "A" "t0")
    2 "B" "t1" 1 1 1 1 [0] 3 _ (by decide) rfl

/-!
## Claims C8, C10 — get_history tracks and same-key overwrites
-/

/-- C8, counterexample: on a worker with one logged iteration,
`get_history` raises `KeyError` (`none`) for the tracks `"n_iter"` and
`"timestamp"` — the stored entries carry only the six keys written by
`append` — while e.g. `"fx"` succeeds. -/
theorem glompo_C8_counterexample :
    (((OptimizerLogger.empty.add_optimizer 1 "OptA" "t0").put_iteration 1 1 1 1 [0] 3).map
        (fun l => l.get_history 1 "n_iter")) = some none
    ∧ (((OptimizerLogger.empty.add_optimizer 1 "OptA" "t0").put_iteration 1 1 1 1 [0] 3).map
        (fun l => l.get_history 1 "timestamp")) = some none
    ∧ (((OptimizerLogger.empty.add_optimizer 1 "OptA" "t0").put_iteration 1 1 1 1 [0] 3).map
        (fun l => l.get_history 1 "fx")) = some (some [TrackValue.rat 3]) := by
  refine ⟨by decide, by decide, by decide⟩

/-- C8 (amended): for a known worker, `get_history` returns one value per
iteration exactly for the six tracks stored by `append` — `f_call_overall`,
`f_call_opt`, `fx`, `i_best`, `fx_best`, `x` — and raises `KeyError` (`none`)
for `"n_iter"` and `"timestamp"` as soon as the history is non-empty. -/
theorem glompo_C8_tracks (log : OptimizerLogger) (opt_id : Int) (s : OptStream)
    (h : dictGet opt_id log._storage = some s) (hne : s.history ≠ []) :
    log.get_history opt_id "f_call_overall"
        = some ((s.history.map Prod.snd).map (fun e => TrackValue.int e.f_call_overall))
    ∧ log.get_history opt_id "f_call_opt"
        = some ((s.history.map Prod.snd).map (fun e => TrackValue.int e.f_call_opt))
    ∧ log.get_history opt_id "fx"
        = some ((s.history.map Prod.snd).map (fun e => TrackValue.rat e.fx))
    ∧ log.get_history opt_id "i_best"
        = some ((s.history.map Prod.snd).map (fun e => TrackValue.int e.i_best))
    ∧ log.get_history opt_id "fx_best"
        = some ((s.history.map Prod.snd).map (fun e => TrackValue.rat e.fx_best))
    ∧ log.get_history opt_id "x"
        = some ((s.history.map Prod.snd).map (fun e => TrackValue.vec e.x))
    ∧ log.get_history opt_id "n_iter" = none
    ∧ log.get_history opt_id "timestamp" = none := by
  have hmapne : s.history.map Prod.snd ≠ [] := by
    intro hc
    exact hne (List.map_eq_nil_iff.1 hc)
  unfold OptimizerLogger.get_history
  rw [h]
  refine ⟨?_, ?_, ?_, ?_, ?_, ?_, ?_, ?_⟩
  · exact mapM_of_total _ _ _ (fun e _ => by simp [Entry.getTrack])
  · exact mapM_of_total _ _ _ (fun e _ => by simp [Entry.getTrack])
  · exact mapM_of_total _ _ _ (fun e _ => by simp [Entry.getTrack])
  · exact mapM_of_total _ _ _ (fun e _ => by simp [Entry.getTrack])
  · exact mapM_of_total _ _ _ (fun e _ => by simp [Entry.getTrack])
  · exact mapM_of_total _ _ _ (fun e _ => by simp [Entry.getTrack])
  · exact mapM_none_of_none _ _ hmapne (fun e => by simp [Entry.getTrack])
  · exact mapM_none_of_none _ _ hmapne (fun e => by simp [Entry.getTrack])

/-- C8, witness for the amended claim on a one-iteration stream. -/
theorem glompo_C8_witness :
    (OptimizerLogger.mk [(1, (OptStream.init 1 "A" "t").append 1 1 1 [0] 3)]).get_history
        1 "n_iter" = none
    ∧ (OptimizerLogger.mk [(1, (OptStream.init 1 "A" "t").append 1 1 1 [0] 3)]).get_history
        1 "timestamp" = none :=
  have H := glompo_C8_tracks
    (OptimizerLogger.mk [(1, (OptStream.init 1 "A" "t").append 1 1 1 [0] 3)])
    1 ((OptStream.init 1 "A" "t").append 1 1 1 [0] 3) (by decide) (by decide)
  ⟨H.2.2.2.2.2.2.1, H.2.2.2.2.2.2.2⟩

/-- C10 (confirmed): the per-worker history is keyed by the iteration number:
a second `put_iteration` under the same `i` overwrites the entry in place
(keys unchanged, so `get_history` lists do not grow), the stored
`f_call_overall`, `f_call_opt`, `x`, `fx` come from the second call, while
the running `fx_best` / `i_best` keep citing the first call's better `fx`,
which no longer appears anywhere in the history. -/
theorem glompo_C10_overwrite (s : OptStream) (i fco1 fcopt1 fco2 fcopt2 : Int)
    (x1 x2 : List Rat) (fx1 fx2 : Rat) (s1 s2 : OptStream)
    (hs1 : s1 = s.append i fco1 fcopt1 x1 fx1)
    (hs2 : s2 = s1.append i fco2 fcopt2 x2 fx2)
    (h1 : betterThan fx1 s.fx_best = true)
    (h2 : fx1 < fx2)
    (h3 : i ∉ s.history.map Prod.fst)
    (h4 : fx1 ∉ s.history.map (fun p => p.2.fx)) :
    s2.history.map Prod.fst = s1.history.map Prod.fst
    ∧ dictGet i s2.history = some (Entry.mk fco2 fcopt2 fx2 i fx1 x2)
    ∧ s2.fx_best = some fx1
    ∧ s2.i_best = i
    ∧ fx1 ∉ s2.history.map (fun p => p.2.fx) := by
  have hb2 : betterThan fx2 (some fx1) = false := by
    simp [betterThan, not_lt.2 (le_of_lt h2)]
  subst hs1 hs2
  simp only [OptStream.append, h1, hb2, if_true, if_false, Bool.false_eq_true,
    Option.getD_some, if_pos, if_neg]
  rw [dictInsert_of_not_mem _ h3, dictInsert_append_last _ _ h3]
  refine ⟨by simp, ?_, trivial, trivial, ?_⟩
  · rw [← dictInsert_append_last _ (Entry.mk fco1 fcopt1 fx1 i fx1 x1) h3]
    exact dictGet_insert_self _ _ _
  · simp [h4, ne_of_lt h2]

/-- C10, witness: a fresh stream for worker 7, `fx = 1` stored under `i = 1`,
then `fx = 2` stored again under `i = 1`. -/
theorem glompo_C10_witness :
    betterThan 1 (OptStream.init 7 "A" "t").fx_best = true
    ∧ (1 : Rat) < 2
    ∧ (((OptStream.init 7 "A" "t").append 1 1 1 [0] 1).append 1 2 2 [1] 2).fx_best = some 1
    ∧ (1 : Rat) ∉ ((((OptStream.init 7 "A" "t").append 1 1 1 [0] 1).append
        1 2 2 [1] 2).history.map (fun p => p.2.fx))
    ∧ ((((OptStream.init 7 "A" "t").append 1 1 1 [0] 1).append 1 2 2 [1] 2).history.map
        Prod.fst) = (((OptStream.init 7 "A" "t").append 1 1 1 [0] 1).history.map Prod.fst) :=
  have H := glompo_C10_overwrite (OptStream.init 7 "A" "t") 1 1 1 2 2 [0] [1] 1 2
    _ _ rfl rfl (by decide) (by decide) (by decide) (by decide)
  ⟨by decide, by decide, H.2.2.1, H.2.2.2.2, H.1⟩

/-!
## Claim C4 — running best is the prefix minimum
-/

/-- The sequence of running-best values produced by successive `append`s:
one step is exactly the update `if fx < fx_best: fx_best = fx` of the source
(optimizerlogger.py:148-149), seeded with the current `fx_best`
(`none` = the initial `math.inf`). -/
def runningMinFrom (b : Option Rat) : List Rat → List Rat
  | [] => []
  | q :: rest =>
      let m := if betterThan q b then q else b.getD q
      m :: runningMinFrom (some m) rest

theorem ite_lt_eq_min (q m : Rat) : (if q < m then q else m) = min q m := by
  rcases le_or_lt m q with h | h
  · rw [if_neg (not_lt.2 h), min_eq_right h]
  · rw [if_pos h, min_eq_left (le_of_lt h)]

theorem runningMinFrom_some (l : List Rat) :
    ∀ m : Rat, runningMinFrom (some m) l
      = (runningMinFrom none l).map (fun a => min m a) := by
  induction l with
  | nil => intro m; rfl
  | cons q rest ih =>
      intro m
      show (if betterThan q (some m) then q else m) ::
          runningMinFrom (some (if betterThan q (some m) then q else m)) rest
        = min m q :: (runningMinFrom (some q) rest).map (fun a => min m a)
      have hval : (if betterThan q (some m) then q else m) = min q m := by
        simp only [betterThan, decide_eq_true_eq]
        exact ite_lt_eq_min q m
      rw [hval, min_comm q m, ih, ih q, List.map_map]
      refine congrArg _ (List.map_congr_left (fun a _ => ?_))
      show min (min m q) a = min m (min q a)
      rw [min_assoc]

theorem runningMinFrom_none_cons (q : Rat) (rest : List Rat) :
    runningMinFrom none (q :: rest)
      = q :: (runningMinFrom none rest).map (fun a => min q a) := by
  show (if betterThan q none then q else q) :: runningMinFrom (some _) rest = _
  simp only [betterThan, if_pos, ite_self]
  rw [runningMinFrom_some]

theorem runningMinFrom_length (l : List Rat) :
    ∀ b, (runningMinFrom b l).length = l.length := by
  induction l with
  | nil => intro b; rfl
  | cons q rest ih => intro b; simp [runningMinFrom, ih]

theorem runningMinFrom_none_get (l : List Rat) :
    ∀ (k : Nat) (h : k < (runningMinFrom none l).length),
      (((runningMinFrom none l).get ⟨k, h⟩ : Rat) : WithTop Rat)
        = (l.take (k + 1)).minimum := by
  induction l with
  | nil => intro k h; simp [runningMinFrom] at h
  | cons q rest ih =>
      intro k h
      rcases k with _ | k
      · simp [runningMinFrom_none_cons, List.minimum_cons]
      · have hk : k < (runningMinFrom none rest).length := by
          rw [runningMinFrom_none_cons] at h
          simpa using h
        have hgoal : ((runningMinFrom none (q :: rest)).get ⟨k + 1, h⟩ : Rat)
            = min q ((runningMinFrom none rest).get ⟨k, hk⟩) := by
          have := runningMinFrom_none_cons q rest
          rw [List.get_of_eq this]
          simp
        rw [hgoal]
        show (((min q ((runningMinFrom none rest).get ⟨k, hk⟩)) : Rat) : WithTop Rat)
          = ((q :: rest).take (k + 2)).minimum
        rw [List.take_succ_cons, List.minimum_cons, WithTop.coe_min, ih k hk]

theorem runningMinFrom_head_le (l : List Rat) (m y : Rat)
    (h : (runningMinFrom (some m) l).head? = some y) : y ≤ m := by
  cases l with
  | nil => simp [runningMinFrom] at h
  | cons q rest =>
      have : (if betterThan q (some m) then q else m) = y := by
        simpa [runningMinFrom] using h
      rw [← this]
      simp only [betterThan, decide_eq_true_eq, ite_lt_eq_min]
      exact min_le_right q m

theorem runningMinFrom_antitone (l : List Rat) :
    ∀ b, List.Chain' (fun a c => c ≤ a) (runningMinFrom b l) := by
  induction l with
  | nil => intro b; simp [runningMinFrom]
  | cons q rest ih =>
      intro b
      show List.Chain' (fun a c => c ≤ a)
        ((if betterThan q b then q else b.getD q) :: runningMinFrom (some _) rest)
      rw [List.chain'_cons']
      exact ⟨fun y hy => runningMinFrom_head_le rest _ y hy, ih _⟩

/-- The walk of appends over a fresh key set: the stored `fx_best` column is
the old one followed by the running minima seeded with the stream's current
best. -/
theorem appendRun_fxBest (its : List Iter) :
    ∀ s : OptStream,
      List.Pairwise Ne (s.history.map Prod.fst ++ its.map Iter.n_iter) →
      fxBestTrack (appendRun s its)
        = fxBestTrack s ++ runningMinFrom s.fx_best (its.map Iter.fx) := by
  induction its with
  | nil => intro s _; simp [appendRun, runningMinFrom, fxBestTrack]
  | cons it rest ih =>
      intro s hp
      have hnot : it.n_iter ∉ s.history.map Prod.fst := by
        intro hmem
        have := (List.pairwise_append.1 hp).2.2 it.n_iter hmem it.n_iter (by simp)
        exact this rfl
      have happ : appendRun s (it :: rest)
          = appendRun (s.append it.n_iter it.f_call_overall it.f_call_opt it.x it.fx) rest := by
        simp [appendRun]
      have hhist : (s.append it.n_iter it.f_call_overall it.f_call_opt it.x it.fx).history
          = s.history ++ [(it.n_iter, Entry.mk it.f_call_overall it.f_call_opt it.fx
              (if betterThan it.fx s.fx_best then it.n_iter else s.i_best)
              (if betterThan it.fx s.fx_best then it.fx else s.fx_best.getD it.fx) it.x)] := by
        show dictInsert it.n_iter _ s.history = _
        rw [dictInsert_of_not_mem _ hnot]
      have hp' : List.Pairwise Ne
          ((s.append it.n_iter it.f_call_overall it.f_call_opt it.x it.fx).history.map Prod.fst
            ++ rest.map Iter.n_iter) := by
        rw [hhist]
        simp only [List.map_append, List.map_cons, List.map_nil, List.append_assoc,
          List.cons_append, List.nil_append]
        simpa using hp
      rw [happ, ih _ hp']
      simp only [fxBestTrack, List.map_cons]
      rw [hhist]
      simp only [List.map_append, List.map_cons, List.map_nil, List.append_assoc]
      rfl

/-- Feeding iterations through the log front end touches only the single
stored stream. -/
theorem putIterAll_single (its : List Iter) :
    ∀ (opt_id : Int) (s : OptStream),
      putIterAll (OptimizerLogger.mk [(opt_id, s)]) opt_id its
        = some (OptimizerLogger.mk [(opt_id, appendRun s its)]) := by
  induction its with
  | nil => intro opt_id s; rfl
  | cons it rest ih =>
      intro opt_id s
      have hstep : (OptimizerLogger.mk [(opt_id, s)]).put_iteration opt_id it.n_iter
          it.f_call_overall it.f_call_opt it.x it.fx
          = some (OptimizerLogger.mk
              [(opt_id, s.append it.n_iter it.f_call_overall it.f_call_opt it.x it.fx)]) := by
        simp [OptimizerLogger.put_iteration, dictGet, dictInsert]
      show (((OptimizerLogger.mk [(opt_id, s)]).put_iteration opt_id it.n_iter
          it.f_call_overall it.f_call_opt it.x it.fx).bind (fun l => putIterAll l opt_id rest)) = _
      rw [hstep]
      show putIterAll (OptimizerLogger.mk
          [(opt_id, s.append it.n_iter it.f_call_overall it.f_call_opt it.x it.fx)]) opt_id rest = _
      rw [ih]
      rfl

/-- C4 (confirmed): feeding a worker's fresh stream a sequence of iterations
with strictly increasing `n_iter`, every stored `fx_best` equals the minimum
of all `fx` values appended up to and including that iteration, the
`fx_best` column is monotonically non-increasing, and
`get_history(opt_id, "fx_best")` returns exactly that column. -/
theorem glompo_C4_fx_best_running_min (opt_id : Int) (cn ts : String) (its : List Iter)
    (hmono : List.Chain' (· < ·) (its.map Iter.n_iter)) :
    (∀ (k : Nat) (hk : k < (fxBestTrack (appendRun (OptStream.init opt_id cn ts) its)).length),
      (((fxBestTrack (appendRun (OptStream.init opt_id cn ts) its)).get ⟨k, hk⟩ : Rat) : WithTop Rat)
        = ((its.map Iter.fx).take (k + 1)).minimum)
    ∧ List.Chain' (fun a c => c ≤ a) (fxBestTrack (appendRun (OptStream.init opt_id cn ts) its))
    ∧ putIterAll (OptimizerLogger.empty.add_optimizer opt_id cn ts) opt_id its
        = some (OptimizerLogger.mk [(opt_id, appendRun (OptStream.init opt_id cn ts) its)])
    ∧ (OptimizerLogger.mk [(opt_id, appendRun (OptStream.init opt_id cn ts) its)]).get_history
          opt_id "fx_best"
        = some ((fxBestTrack (appendRun (OptStream.init opt_id cn ts) its)).map TrackValue.rat) := by
  have hpair : List.Pairwise Ne
      ((OptStream.init opt_id cn ts).history.map Prod.fst ++ its.map Iter.n_iter) := by
    show List.Pairwise Ne ([] ++ its.map Iter.n_iter)
    rw [List.nil_append]
    exact (List.chain'_iff_pairwise.1 hmono).imp (fun h => ne_of_lt h)
  have hrun : fxBestTrack (appendRun (OptStream.init opt_id cn ts) its)
      = runningMinFrom none (its.map Iter.fx) := by
    have := appendRun_fxBest its (OptStream.init opt_id cn ts) hpair
    simpa [fxBestTrack, OptStream.init] using this
  refine ⟨?_, ?_, ?_, ?_⟩
  · intro k hk
    have hk' : k < (runningMinFrom none (its.map Iter.fx)).length := by
      rw [← hrun]; exact hk
    have := runningMinFrom_none_get (its.map Iter.fx) k hk'
    rw [← this]
    congr 1
    exact List.get_of_eq hrun ⟨k, hk⟩
  · rw [hrun]; exact runningMinFrom_antitone _ none
  · have hadd : OptimizerLogger.empty.add_optimizer opt_id cn ts
        = OptimizerLogger.mk [(opt_id, OptStream.init opt_id cn ts)] := rfl
    rw [hadd]
    exact putIterAll_single its opt_id (OptStream.init opt_id cn ts)
  · have hget : dictGet opt_id [(opt_id, appendRun (OptStream.init opt_id cn ts) its)]
        = some (appendRun (OptStream.init opt_id cn ts) its) := by simp [dictGet]
    unfold OptimizerLogger.get_history
    rw [hget]
    show ((appendRun (OptStream.init opt_id cn ts) its).history.map Prod.snd).mapM
        (fun e => e.getTrack "fx_best") = _
    rw [mapM_of_total (fun e => Entry.getTrack e "fx_best")
      (fun e => TrackValue.rat e.fx_best)
      ((appendRun (OptStream.init opt_id cn ts) its).history.map Prod.snd)
      (fun e _ => by simp [Entry.getTrack])]
    simp [fxBestTrack]

/-- C4, witness: two iterations with `n_iter = 1, 2` and `fx = 5, 3`. -/
theorem glompo_C4_witness :
    List.Chain' (· < ·) (([Iter.mk 1 1 1 [0] 5, Iter.mk 2 2 2 [0] 3]).map Iter.n_iter)
    ∧ List.Chain' (fun a c => c ≤ a)
        (fxBestTrack (appendRun (OptStream.init 1 "A" "t")
          [Iter.mk 1 1 1 [0] 5, Iter.mk 2 2 2 [0] 3])) :=
  ⟨by simp [List.chain'_cons], (glompo_C4_fx_best_running_min 1 "A" "t"
      [Iter.mk 1 1 1 [0] 5, Iter.mk 2 2 2 [0] 3] (by simp [List.chain'_cons])).2.1⟩

/-!
## Claim C9 — PseudoConverged
-/

/-- The lockstep walk of `PseudoConverged.__call__` finds exactly the first
(most recent) entry whose `f_call_opt` lies at least `calls` behind the
latest. -/
theorem walkBack_eq_find (last calls : Int) :
    ∀ (fs : List Int) (vs : List Rat),
      walkBack last calls fs vs
        = ((fs.zip vs).find? (fun p => decide (calls ≤ last - p.1))).map Prod.snd := by
  intro fs
  induction fs with
  | nil => intro vs; cases vs <;> rfl
  | cons f fs ih =>
      intro vs
      cases vs with
      | nil => rfl
      | cons v vs =>
          show (if calls ≤ last - f then some v else walkBack last calls fs vs) = _
          by_cases h : calls ≤ last - f
          · simp [List.find?_cons, h]
          · simp [List.find?_cons, h, ih vs]

/-- C9 (confirmed): for a non-negative tolerance (the spec fixes relative
tolerances in [0, 1]), `PseudoConverged.__call__` computes exactly the
claim's description: `False` when the latest `f_call_opt` is at most `calls`
or when no entry lies at least `calls` evaluations behind the latest;
otherwise the relative check
`|fx_best(last) - fx_best(entry)| ≤ tol * |fx_best(entry)|` on the first such
entry found walking backwards. -/
theorem glompo_C9_pseudoconv (calls : Int) (tol : Rat) (s : OptStream)
    (htol : 0 ≤ tol) :
    PseudoConverged.call calls tol s = pseudoConvergedSpec calls tol s := by
  unfold PseudoConverged.call pseudoConvergedSpec
  cases hf : (fcallOptTrack s).reverse with
  | nil => rfl
  | cons last rfs =>
      cases hv : (fxBestTrack s).reverse with
      | nil => rfl
      | cons vlast rvs =>
          by_cases hle : last ≤ calls
          · simp [hle]
          · simp only [if_neg hle]
            rw [walkBack_eq_find]
            cases hfind : ((last :: rfs).zip (vlast :: rvs)).find?
                (fun p => decide (calls ≤ last - p.1)) with
            | none => simp
            | some p =>
                simp only [Option.map_some']
                congr 1
                have habs : |p.2 * tol| = tol * |p.2| := by
                  rw [abs_mul, abs_of_nonneg htol, mul_comm]
                rw [habs]

/-- C9, witness at `calls = 100`, `tol = 0` on a one-iteration stream. -/
theorem glompo_C9_witness :
    (0 : Rat) ≤ 0
    ∧ PseudoConverged.call 100 0 ((OptStream.init 1 "A" "t").append 1 1 1 [0] 3)
        = pseudoConvergedSpec 100 0 ((OptStream.init 1 "A" "t").append 1 1 1 [0] 3) :=
  ⟨by decide, glompo_C9_pseudoconv 100 0 _ (by decide)⟩

/-!
## Claims C1, C7 — predicate algebra evaluation and reset
-/

theorem allCleared_clearSub (t : CoreTree) : t.clearSub.allCleared = true := by
  induction t with
  | leaf r lr => rfl
  | orCore lr b1 b2 ih1 ih2 => simp [CoreTree.clearSub, CoreTree.allCleared, ih1, ih2]
  | andCore lr b1 b2 ih1 ih2 => simp [CoreTree.clearSub, CoreTree.allCleared, ih1, ih2]

/-- C1, counterexample: evaluating `TrueHunter() | FalseHunter()` once yields
`true` but Python's `or` short-circuits, so the right leaf is never evaluated
and keeps `last_result = None` — the claimed "both operands are always
evaluated" does not hold. -/
theorem glompo_C1_counterexample :
    (CoreTree.orCore none (.leaf true none) (.leaf false none)).call
        = (.orCore (some true) (.leaf true (some true)) (.leaf false none), true)
    ∧ ((CoreTree.orCore none (.leaf true none) (.leaf false none)).call).1.leavesSet = false := by
  constructor
  · simp [CoreTree.call, CoreTree.clearSub]
  · simp [CoreTree.call, CoreTree.clearSub, CoreTree.leavesSet]

/-- C1 (amended): evaluation of `|` / `&` short-circuits like Python's
`or` / `and`: the left operand is always evaluated, the right one only when
the left does not decide the result (it is merely reset, keeping
`last_result = None` on all its nodes); nevertheless on the claim's example
`FalseHunter() | (TrueHunter() & TrueHunter())` every operand is evaluated,
one top-level evaluation yields `true`, and every leaf's `last_result` is
set. -/
theorem glompo_C1_short_circuit (b1 b2 c1 c2 : CoreTree) (lr lr' : Option Bool)
    (h1 : (b1.clearSub.call).2 = true) (h2 : (c1.clearSub.call).2 = false) :
    (CoreTree.orCore lr b1 b2).call
        = (.orCore (some true) (b1.clearSub.call).1 b2.clearSub, true)
    ∧ (CoreTree.andCore lr' c1 c2).call
        = (.andCore (some false) (c1.clearSub.call).1 c2.clearSub, false)
    ∧ ((CoreTree.orCore none (.leaf false none)
        (.andCore none (.leaf true none) (.leaf true none))).call).2 = true
    ∧ ((CoreTree.orCore none (.leaf false none)
        (.andCore none (.leaf true none) (.leaf true none))).call).1.leavesSet = true := by
  refine ⟨?_, ?_, ?_, ?_⟩
  · rw [CoreTree.call]
    simp [h1]
  · rw [CoreTree.call]
    simp [h2]
  · simp [CoreTree.call, CoreTree.clearSub]
  · simp [CoreTree.call, CoreTree.clearSub, CoreTree.leavesSet]

/-- C1, witness: `TrueHunter() | FalseHunter()` short-circuits on the left
`true`. -/
theorem glompo_C1_witness :
    ((CoreTree.leaf true none).clearSub.call).2 = true
    ∧ ((CoreTree.leaf false none).clearSub.call).2 = false
    ∧ (CoreTree.orCore none (.leaf true none) (.leaf false none)).call
        = (.orCore (some true) (((CoreTree.leaf true none).clearSub.call).1)
            (CoreTree.leaf false none).clearSub, true) :=
  have H := glompo_C1_short_circuit (.leaf true none) (.leaf false none)
    (.leaf false none) (.leaf true none) none none
    (by simp [CoreTree.call, CoreTree.clearSub])
    (by simp [CoreTree.call, CoreTree.clearSub])
  ⟨by simp [CoreTree.call, CoreTree.clearSub],
   by simp [CoreTree.call, CoreTree.clearSub], H.1⟩

/-- C7, counterexample: after evaluating `TrueHunter() | FalseHunter()` the
root caches `some true`; calling `reset()` on it clears every node below but
leaves the root's own `last_result` at `some true`, not `None` — `reset` on a
composite does not clear the node it is called on. -/
theorem glompo_C7_counterexample :
    ((CoreTree.orCore none (.leaf true none) (.leaf false none)).call).1.reset.lastResult
        = some true
    ∧ ((CoreTree.orCore none (.leaf true none)
        (.leaf false none)).call).1.reset.lastResult ≠ none := by
  constructor
  · simp [CoreTree.call, CoreTree.clearSub, CoreTree.reset, CoreTree.lastResult]
  · simp [CoreTree.call, CoreTree.clearSub, CoreTree.reset, CoreTree.lastResult]

/-- C7 (amended): `reset()` sets `last_result = None` on every strict
descendant of the node it is called on, and a leaf additionally clears
itself; a composite node's own cached `last_result` is left untouched by its
`reset` (evaluation overwrites it instead). -/
theorem glompo_C7_reset_clears_descendants (t : CoreTree) :
    t.reset.subCleared = true
    ∧ t.reset.lastResult = (if t.isLeaf then none else t.lastResult) := by
  cases t with
  | leaf r lr => exact ⟨rfl, rfl⟩
  | orCore lr b1 b2 =>
      refine ⟨?_, rfl⟩
      simp [CoreTree.reset, CoreTree.subCleared, allCleared_clearSub]
  | andCore lr b1 b2 =>
      refine ⟨?_, rfl⟩
      simp [CoreTree.reset, CoreTree.subCleared, allCleared_clearSub]
